import Mathlib

/-
A verification development for the libnop table codec, shallowly embedding
include/nop/base/table.h and include/nop/status.h in Lean 4.

The table encoder/decoder (Encoding<Table> in table.h) is translated from
the C++ source.  Collaborators that the sources reference but do not
contain — the generic fixed-width integer codec, the EncodingByte marker
values, the BoundedReader/BoundedWriter utilities and the EncodingIO
prefix driver — are modelled from the specification document (spec §4.1,
§6), as noted on each such definition.

Streams are lists of natural-number bytes.  The byte sink is modelled as
pure list concatenation; the byte source as a list that read operations
consume from the front.  Decode functions return the final state of the
destination record together with either the remaining stream or an error
code, mirroring the in-place mutation of the destination `Table*` in the
C++ source (on error the mutations performed so far persist).
-/

namespace Nop

/-! ### Error model (include/nop/status.h, lines 32-50)

`enum class ErrorStatus` enumerators, by their underlying integer values
(declaration order, starting at 0).  table.h never names these
enumerators: at every protocol failure it returns `ErrorStatus(EPROTO)`,
a functional cast of the POSIX errno constant `EPROTO` into the scoped
enum, which corresponds to none of the declared enumerators. -/

def ErrorStatusNone : Nat := 0

def UnexpectedEncodingType : Nat := 1

def UnexpectedHandleType : Nat := 2

def UnexpectedVariantType : Nat := 3

def InvalidContainerLength : Nat := 4

def InvalidMemberCount : Nat := 5

def InvalidStringLength : Nat := 6

def InvalidTableHash : Nat := 7

def InvalidHandleReference : Nat := 8

def InvalidInterfaceMethod : Nat := 9

def DuplicateTableEntry : Nat := 10

def ReadLimitReached : Nat := 11

def WriteLimitReached : Nat := 12

def StreamError : Nat := 13

def ProtocolError : Nat := 14

def IOError : Nat := 15

def SystemError : Nat := 16

/-- The value `ErrorStatus(EPROTO)` returned by table.h at protocol
failures: the POSIX errno constant `EPROTO` (71 on Linux) cast into the
`ErrorStatus` enum.  It equals none of the declared enumerators above. -/
def EPROTO : Nat := 71

/-! ### Fixed-width 64-bit integers on the wire -/

/-- Little-endian base-256 digits: `leBytes k n` is the `k` low-order
bytes of `n`. -/
def leBytes : Nat → Nat → List Nat
  | 0, _ => []
  | k + 1, n => n % 256 :: leBytes k (n / 256)

/-- The value of a little-endian byte list. -/
def leVal : List Nat → Nat
  | [] => 0
  | b :: bs => b + 256 * leVal bs

/-- Modelled from the spec (§6): the fingerprint, count, id and size
fields use a fixed-width 64-bit little-endian integer encoding.  The
generic integer codec (encoding.h) is not among the sources. -/
def WriteU64 (n : Nat) : List Nat := leBytes 8 n

/-- Modelled from the spec (§6): `Encoding<std::uint64_t>::Size` for the
fixed-width 64-bit integer encoding is always 8 bytes. -/
def EncodingU64Size (_n : Nat) : Nat := 8

/-- Modelled from the spec (§4.2, §6): `BaseEncodingSize(prefix)` — the
one marker byte that precedes an encoding. -/
def BaseEncodingSize : Nat := 1

/-- Modelled from the spec (§4.3): the "binary region" marker byte
(`EncodingByte::Binary`; encoding_byte.h is not among the sources, the
concrete value is representative). -/
def EncodingByteBinary : Nat := 0xb5

/-- Modelled from the spec (§6): the table marker byte
(`EncodingByte::Table`; encoding_byte.h is not among the sources, the
concrete value is representative). -/
def EncodingByteTable : Nat := 0xb9

/-- Reading one byte from the stream (`reader->Read(&prefix)`).  A
failure of the underlying byte source is passed through; it is modelled
as `IOError`. -/
def ReadByte (s : List Nat) : Except Nat (Nat × List Nat) :=
  match s with
  | [] => .error IOError
  | b :: rest => .ok (b, rest)

/-- Modelled from the spec (§6): `Encoding<std::uint64_t>::Read` for the
fixed-width encoding reads 8 little-endian bytes. -/
def ReadU64 (s : List Nat) : Except Nat (Nat × List Nat) :=
  if 8 ≤ s.length then .ok (leVal (s.take 8), s.drop 8) else .error IOError

/-- `reader->Skip(count)`: discard exactly `n` bytes from the stream. -/
def Skip (n : Nat) (s : List Nat) : Except Nat (List Nat) :=
  if n ≤ s.length then .ok (s.drop n) else .error IOError

/-! ### Field slots (Entry<T, Id, ActiveEntry> and Entry<T, Id, DeletedEntry>) -/

/-- One table field slot: an `Entry<T, Id, ActiveEntry>` is an optional
holder for a payload of type `τ`; an `Entry<T, Id, DeletedEntry>` carries
no payload at all.  Both carry their permanent numeric `Id`. -/
inductive Slot (τ : Type) where
  | active (id : Nat) (payload : Option τ)
  | deleted (id : Nat)
deriving DecidableEq

variable {τ : Type}

/-- The `Id` enumerator of an entry. -/
def Slot.id : Slot τ → Nat
  | .active i _ => i
  | .deleted i => i

/-- `entry.empty()`: an active entry is empty when it holds no payload; a
deleted entry is always empty. -/
def Slot.empty : Slot τ → Bool
  | .active _ p => p.isNone
  | .deleted _ => true

/-- `(bool)entry`, i.e. `!entry.empty()`: whether the entry holds a value. -/
def Slot.present (s : Slot τ) : Bool := !s.empty

/-- Whether the slot has the `DeletedEntry` disposition. -/
def Slot.isDeleted : Slot τ → Bool
  | .active _ _ => false
  | .deleted _ => true

/-- `entry.clear()`: empties an active entry; a no-op on a deleted entry. -/
def Slot.clear : Slot τ → Slot τ
  | .active i _ => .active i none
  | .deleted i => .deleted i

/-- A table record: the ordered list of its field slots, as enumerated by
the table's `EntryList` (declaration order). -/
abbrev Record (τ : Type) := List (Slot τ)

/-- The schema shape of one slot: its id and whether it is active. -/
def schemaOf : Slot τ → Nat × Bool
  | .active i _ => (i, true)
  | .deleted i => (i, false)

/-- Two records are instances of the same table type: same slot ids and
dispositions in the same declaration order. -/
def SameSchema (a b : Record τ) : Prop := a.map schemaOf = b.map schemaOf

/-- The invariants the `EntryList` of a well-formed table type provides:
slot ids are pairwise distinct (the `static_assert(IsUnique...)` in
table.h), each id is a 64-bit value (`std::uint64_t Id`), and the member
count is a 64-bit value (it is written to the wire as the count field). -/
def WellFormed (slots : Record τ) : Prop :=
  (slots.map Slot.id).Nodup ∧ (∀ sl ∈ slots, sl.id < 2 ^ 64) ∧
    slots.length < 2 ^ 64

/-! ### The generic value codec collaborator

The spec (§6) reduces the scalar/container encoding layer to the contract
`value-size`, `encode`, `decode`; table.h invokes it as
`Encoding<T>::Size/Write/Read`. -/

/-- Modelled from the spec (§6): the generic value codec for payload type
`τ`.  `read` receives the bytes available inside the bounded region and
returns the decoded value and the unconsumed suffix of that region;
`dflt` is the default-constructed `T{}`. -/
structure ValueCodec (τ : Type) where
  dflt : τ
  size : τ → Nat
  write : τ → List Nat
  read : List Nat → Option (τ × List Nat)

/-- The collaborator contract the table codec relies on (spec §4.1, §6):
the encoder never writes more bytes than `size` declares, declared sizes
fit in 64 bits, and decoding an encoding followed by zero padding yields
the original value and leaves exactly the padding unread. -/
def GoodCodec (c : ValueCodec τ) : Prop :=
  ∀ v : τ, (c.write v).length ≤ c.size v ∧ c.size v < 2 ^ 64 ∧
    ∀ k : Nat, c.read (c.write v ++ List.replicate k 0) = some (v, List.replicate k 0)

/-! ### Encoding<Table> — size computation (table.h lines 197-287) -/

/-- `ActiveEntryCount(value, Index<index>)`: the number of non-empty
active entries of the record. -/
def ActiveEntryCount : Record τ → Nat
  | [] => 0
  | s :: rest => (if s.present then 1 else 0) + ActiveEntryCount rest

/-- The per-entry `Size` overloads (table.h lines 267-279): a non-empty
active entry contributes its id size plus its value size; empty and
deleted entries contribute nothing. -/
def EntrySize (c : ValueCodec τ) : Slot τ → Nat
  | .active i (some v) => EncodingU64Size i + c.size v
  | .active _ none => 0
  | .deleted _ => 0

/-- `Size(value, Index<index>)` (table.h lines 281-287): the sum of the
per-entry sizes over the entry list. -/
def TableEntriesSize (c : ValueCodec τ) : Record τ → Nat
  | [] => 0
  | s :: rest => EntrySize c s + TableEntriesSize c rest

/-- `Encoding<Table>::Size` (table.h lines 197-204): prefix byte, table
hash, active entry count, then the per-entry contributions. -/
def Size (c : ValueCodec τ) (hash : Nat) (slots : Record τ) : Nat :=
  BaseEncodingSize + EncodingU64Size hash +
    EncodingU64Size (ActiveEntryCount slots) + TableEntriesSize c slots

/-! ### Encoding<Table> — serialization (table.h lines 210-224, 297-355) -/

/-- `WriteEntry` (table.h lines 297-338).  A non-empty active entry emits
its id, the binary marker, the declared size, and then the value encoding
inside a `BoundedWriter` of exactly `size` bytes, which pads any
shortfall with zero bytes and fails with `WriteLimitReached` if the value
encoder overruns (spec §4.1).  Empty and deleted entries emit nothing. -/
def WriteEntry (c : ValueCodec τ) : Slot τ → Except Nat (List Nat)
  | .active i (some v) =>
    let size := c.size v
    let body := c.write v
    if size < body.length then .error WriteLimitReached
    else .ok (WriteU64 i ++ EncodingByteBinary :: WriteU64 size ++
      body ++ List.replicate (size - body.length) 0)
  | .active _ none => .ok []
  | .deleted _ => .ok []

/-- `WriteEntries(value, writer, Index<index>)` (table.h lines 340-355):
write every entry in declaration order, stopping at the first failure. -/
def WriteEntries (c : ValueCodec τ) : Record τ → Except Nat (List Nat)
  | [] => .ok []
  | s :: rest =>
    match WriteEntry c s with
    | .error e => .error e
    | .ok b =>
      match WriteEntries c rest with
      | .error e => .error e
      | .ok bs => .ok (b ++ bs)

/-- `Encoding<Table>::WritePayload` (table.h lines 210-224): the table
hash, the active entry count, then the entries.  The underlying byte sink
is append-only and never fails in this model; bytes a failing write had
already pushed to the sink are not modelled. -/
def WritePayload (c : ValueCodec τ) (hash : Nat) (slots : Record τ) :
    Except Nat (List Nat) :=
  match WriteEntries c slots with
  | .error e => .error e
  | .ok bs => .ok (WriteU64 hash ++ WriteU64 (ActiveEntryCount slots) ++ bs)

/-- Modelled from the spec (§6 wire format): the top-level encoder emits
the table marker byte and then the payload (the `EncodingIO` driver in
encoding.h is not among the sources). -/
def Write (c : ValueCodec τ) (hash : Nat) (slots : Record τ) :
    Except Nat (List Nat) :=
  match WritePayload c hash slots with
  | .error e => .error e
  | .ok bs => .ok (EncodingByteTable :: bs)

/-! ### Encoding<Table> — deserialization (table.h lines 226-246, 357-448)

Each read function returns the final state of the destination record (or
slot) alongside the outcome, mirroring the in-place mutation of the C++
destination: on error, mutations performed before the failure persist. -/

/-- `ClearEntries(value, Index<index>)` (table.h lines 289-295): clear
every slot of the destination record. -/
def ClearEntries (slots : Record τ) : Record τ := slots.map Slot.clear

/-- `SkipEntry` (table.h lines 394-409): read the binary marker (fail
with `ErrorStatus(EPROTO)` on any other byte), read the declared size,
and discard exactly that many bytes. -/
def SkipEntry (s : List Nat) : Except Nat (List Nat) :=
  match ReadByte s with
  | .error e => .error e
  | .ok (pfx, s1) =>
    if pfx = EncodingByteBinary then
      match ReadU64 s1 with
      | .error e => .error e
      | .ok (size, s2) => Skip size s2
    else .error EPROTO

/-- `ReadEntry` (table.h lines 357-391 and 411-415).  For a deleted slot,
skip the entry.  For an active slot that is already non-empty — this id
already appeared in this decode — fail with `ErrorStatus(EPROTO)` without
consuming anything.  For an empty active slot: read the binary marker
(fail with `ErrorStatus(EPROTO)` otherwise), read the declared size,
default-construct the payload (`*entry = T{}`), then run the value
decoder inside a `BoundedReader` of exactly `size` bytes and skip the
remaining padding (spec §4.1).  A value-decoder failure inside the
bounded region is modelled as `ReadLimitReached`. -/
def ReadEntry (c : ValueCodec τ) (slot : Slot τ) (s : List Nat) :
    Slot τ × Except Nat (List Nat) :=
  match slot with
  | .deleted i => (.deleted i, SkipEntry s)
  | .active i (some v) => (.active i (some v), .error EPROTO)
  | .active i none =>
    match ReadByte s with
    | .error e => (.active i none, .error e)
    | .ok (pfx, s1) =>
      if pfx = EncodingByteBinary then
        match ReadU64 s1 with
        | .error e => (.active i none, .error e)
        | .ok (size, s2) =>
          let region := s2.take size
          match c.read region with
          | none => (.active i (some c.dflt), .error ReadLimitReached)
          | some (v, leftover) =>
            let consumed := region.length - leftover.length
            (.active i (some v), Skip (size - consumed) (s2.drop consumed))
      else (.active i none, .error EPROTO)

/-- `ReadEntryForId(value, id, reader, Index<index>)` (table.h lines
417-432): scan the entry list for the slot whose id matches, checking the
slot at position `index - 1` first; at `Index<0>` no slot matched and the
entry is skipped. -/
def ReadEntryForIdN (c : ValueCodec τ) (slots : Record τ) (id : Nat)
    (s : List Nat) : Nat → Record τ × Except Nat (List Nat)
  | 0 => (slots, SkipEntry s)
  | n + 1 =>
    match slots[n]? with
    | none => ReadEntryForIdN c slots id s n
    | some slot =>
      if slot.id = id then
        let r := ReadEntry c slot s
        (slots.set n r.1, r.2)
      else ReadEntryForIdN c slots id s n

/-- The entry point of the id scan: start from `Index<Count>`. -/
def ReadEntryForId (c : ValueCodec τ) (slots : Record τ) (id : Nat)
    (s : List Nat) : Record τ × Except Nat (List Nat) :=
  ReadEntryForIdN c slots id s slots.length

/-- `ReadEntries` (table.h lines 434-448): `count` times, read an id and
dispatch on it. -/
def ReadEntries (c : ValueCodec τ) (slots : Record τ) (count : Nat)
    (s : List Nat) : Record τ × Except Nat (List Nat) :=
  match count with
  | 0 => (slots, .ok s)
  | n + 1 =>
    match ReadU64 s with
    | .error e => (slots, .error e)
    | .ok (id, s1) =>
      match ReadEntryForId c slots id s1 with
      | (slots', .error e) => (slots', .error e)
      | (slots', .ok s2) => ReadEntries c slots' n s2

/-- `Encoding<Table>::ReadPayload` (table.h lines 226-246): clear all
destination entries, read the hash and fail with `ErrorStatus(EPROTO)` on
mismatch, read the count, then read that many entries. -/
def ReadPayload (c : ValueCodec τ) (hash : Nat) (slots : Record τ)
    (s : List Nat) : Record τ × Except Nat (List Nat) :=
  let cleared := ClearEntries slots
  match ReadU64 s with
  | .error e => (cleared, .error e)
  | .ok (h, s1) =>
    if h = hash then
      match ReadU64 s1 with
      | .error e => (cleared, .error e)
      | .ok (count, s2) => ReadEntries c cleared count s2
    else (cleared, .error EPROTO)

/-- Modelled from the spec (§6 wire format): the top-level decoder reads
the marker byte, requires the table marker, then reads the payload (the
`EncodingIO` driver in encoding.h is not among the sources). -/
def Read (c : ValueCodec τ) (hash : Nat) (slots : Record τ)
    (s : List Nat) : Record τ × Except Nat (List Nat) :=
  match ReadByte s with
  | .error e => (slots, .error e)
  | .ok (pfx, s1) =>
    if pfx = EncodingByteTable then ReadPayload c hash slots s1
    else (slots, .error UnexpectedEncodingType)

/-! ### Specification-side definitions

These follow the wording of the spec (§4.2, §4.3, §6) rather than the
source, for comparison against the source-derived definitions above. -/

/-- The spec's `slot-contribution` (§4.2): 0 for deleted slots and for
empty active slots; `size(id) + value-size(T, payload)` for a present
active slot. -/
def slotContribution (c : ValueCodec τ) : Slot τ → Nat
  | .deleted _ => 0
  | .active _ none => 0
  | .active i (some v) => EncodingU64Size i + c.size v

/-- The wire bytes of one present active entry as §6 lays them out: the
id, the binary-region marker, the declared size, then a region of exactly
`size` bytes holding the value encoding padded with zero bytes. -/
def specEntryBytes (c : ValueCodec τ) (i : Nat) (v : τ) : List Nat :=
  WriteU64 i ++ EncodingByteBinary :: WriteU64 (c.size v) ++
    c.write v ++ List.replicate (c.size v - (c.write v).length) 0

/-- The concatenated entry bytes of a record, in declaration order:
deleted and empty active slots contribute nothing (§4.3). -/
def specEntriesBytes (c : ValueCodec τ) : Record τ → List Nat
  | [] => []
  | .active i (some v) :: rest => specEntryBytes c i v ++ specEntriesBytes c rest
  | .active _ none :: rest => specEntriesBytes c rest
  | .deleted _ :: rest => specEntriesBytes c rest

/-- The full table wire bytes as §6 lays them out: the table marker, the
fingerprint, the count of present active slots, then the entries. -/
def specTableBytes (c : ValueCodec τ) (hash : Nat) (slots : Record τ) :
    List Nat :=
  EncodingByteTable :: WriteU64 hash ++
    WriteU64 ((slots.filter fun s => s.present).length) ++
    specEntriesBytes c slots

/-- The per-record wire overhead that `Encoding<Table>::Size` does not
account for: one binary marker byte plus the encoded width of the 64-bit
declared-size field, per present active slot. -/
def specOverhead (c : ValueCodec τ) : Record τ → Nat
  | [] => 0
  | .active _ (some v) :: rest => (1 + EncodingU64Size (c.size v)) + specOverhead c rest
  | .active _ none :: rest => specOverhead c rest
  | .deleted _ :: rest => specOverhead c rest

/-! ### A concrete instantiation: booleans encoded as one byte -/

/-- A concrete value codec for instantiating the development: a boolean
payload encoded as a single byte. -/
def boolCodec : ValueCodec Bool where
  dflt := false
  size := fun _ => 1
  write := fun b => match b with | true => [1] | false => [0]
  read := fun s =>
    match s with
    | 0 :: rest => some (false, rest)
    | 1 :: rest => some (true, rest)
    | _ => none

/-- A concrete three-slot record: a populated active slot, an empty
active slot and a deleted slot. -/
def wSlots : Record Bool :=
  [Slot.active 1 (some true), Slot.active 2 none, Slot.deleted 3]

/-- The wire bytes of `wSlots` under fingerprint 42. -/
def wBytes : List Nat := specTableBytes boolCodec 42 wSlots

/-! ### Wire-integer lemmas -/

theorem leBytes_length (k n : Nat) : (leBytes k n).length = k := by
  induction k generalizing n with
  | zero => rfl
  | succ k ih => simp [leBytes, ih]

theorem leVal_leBytes (k n : Nat) : leVal (leBytes k n) = n % 256 ^ k := by
  induction k generalizing n with
  | zero => simp [leBytes, leVal, Nat.mod_one]
  | succ k ih =>
    have hd : n % (256 * 256 ^ k) / 256 = n / 256 % 256 ^ k :=
      Nat.mod_mul_right_div_self n 256 (256 ^ k)
    have hm : n % (256 * 256 ^ k) % 256 = n % 256 :=
      Nat.mod_mod_of_dvd n ⟨256 ^ k, rfl⟩
    have hdm := Nat.div_add_mod (n % (256 * 256 ^ k)) 256
    have hpow : (256 : Nat) ^ (k + 1) = 256 * 256 ^ k := by ring
    simp only [leBytes, leVal, ih, hpow]
    omega

theorem WriteU64_length (n : Nat) : (WriteU64 n).length = 8 := leBytes_length 8 n

theorem ReadU64_append (n : Nat) (rest : List Nat) (h : n < 2 ^ 64) :
    ReadU64 (WriteU64 n ++ rest) = .ok (n, rest) := by
  have hlen : (WriteU64 n).length = 8 := WriteU64_length n
  have h8 : 8 ≤ (WriteU64 n ++ rest).length := by
    rw [List.length_append, hlen]; omega
  simp only [ReadU64, if_pos h8]
  rw [List.take_left' hlen, List.drop_left' hlen]
  have hv : leVal (WriteU64 n) = n % 256 ^ 8 := leVal_leBytes 8 n
  have h264 : (256 : Nat) ^ 8 = 2 ^ 64 := by norm_num
  rw [hv, h264, Nat.mod_eq_of_lt h]

theorem Skip_append (m : Nat) (body rest : List Nat) (h : body.length = m) :
    Skip m (body ++ rest) = .ok rest := by
  have hle : m ≤ (body ++ rest).length := by
    rw [List.length_append, h]; omega
  simp only [Skip, if_pos hle]
  rw [List.drop_left' h]

/-! ### Slot lemmas -/

theorem Slot.id_clear (s : Slot τ) : s.clear.id = s.id := by
  cases s <;> rfl

theorem Slot.clear_of_not_present (s : Slot τ) (h : s.present = false) :
    s.clear = s := by
  cases s with
  | active i p => cases p <;> simp_all [Slot.present, Slot.empty, Slot.clear]
  | deleted i => rfl

theorem Slot.empty_clear (s : Slot τ) : s.clear.empty = true := by
  cases s <;> rfl

theorem ClearEntries_ids (l : Record τ) :
    (ClearEntries l).map Slot.id = l.map Slot.id := by
  simp [ClearEntries, List.map_map, Function.comp_def, Slot.id_clear]

theorem ClearEntries_cons (s : Slot τ) (l : Record τ) :
    ClearEntries (s :: l) = s.clear :: ClearEntries l := rfl

theorem ClearEntries_append (a b : Record τ) :
    ClearEntries (a ++ b) = ClearEntries a ++ ClearEntries b := by
  simp [ClearEntries]

theorem ClearEntries_idem (l : Record τ) :
    ClearEntries (ClearEntries l) = ClearEntries l := by
  simp only [ClearEntries, List.map_map]
  apply List.map_congr_left
  intro s _
  cases s <;> rfl

theorem ClearEntries_of_sameSchema {a b : Record τ} (h : SameSchema a b) :
    ClearEntries a = ClearEntries b := by
  have key : ∀ l : Record τ, ClearEntries l =
      (l.map schemaOf).map
        (fun p : Nat × Bool => if p.2 then Slot.active p.1 none else Slot.deleted p.1) := by
    intro l
    induction l with
    | nil => rfl
    | cons s rest ih =>
      simp only [ClearEntries, List.map_cons] at ih ⊢
      rw [ih]
      cases s <;> rfl
  rw [key, key, h]

theorem ActiveEntryCount_le_length (l : Record τ) :
    ActiveEntryCount l ≤ l.length := by
  induction l with
  | nil => simp [ActiveEntryCount]
  | cons s rest ih =>
    simp only [ActiveEntryCount, List.length_cons]
    split <;> omega

theorem ActiveEntryCount_eq_filter (l : Record τ) :
    ActiveEntryCount l = (l.filter fun s => s.present).length := by
  induction l with
  | nil => rfl
  | cons s rest ih =>
    cases hp : s.present with
    | true => simp [ActiveEntryCount, List.filter_cons, hp, ih, Nat.add_comm]
    | false => simp [ActiveEntryCount, List.filter_cons, hp, ih]

/-! ### Entry-level decode lemmas -/

theorem SkipEntry_spec (sz : Nat) (body rest : List Nat) (hsz : sz < 2 ^ 64)
    (hlen : body.length = sz) :
    SkipEntry (EncodingByteBinary :: WriteU64 sz ++ body ++ rest) = .ok rest := by
  have hstream : EncodingByteBinary :: WriteU64 sz ++ body ++ rest =
      EncodingByteBinary :: (WriteU64 sz ++ (body ++ rest)) := by
    simp [List.append_assoc]
  rw [hstream]
  simp [SkipEntry, ReadByte, ReadU64_append sz (body ++ rest) hsz,
    Skip_append sz body rest hlen]

theorem ReadEntry_active_spec (c : ValueCodec τ) (hc : GoodCodec c) (i : Nat) (v : τ)
    (rest : List Nat) :
    ReadEntry c (.active i none)
        (EncodingByteBinary :: WriteU64 (c.size v) ++ c.write v ++
          List.replicate (c.size v - (c.write v).length) 0 ++ rest) =
      (.active i (some v), .ok rest) := by
  obtain ⟨hle, hsz, hread⟩ := hc v
  have hpadlen : (List.replicate (c.size v - (c.write v).length) (0 : Nat)).length
      = c.size v - (c.write v).length := List.length_replicate _ _
  have hbodylen :
      (c.write v ++ List.replicate (c.size v - (c.write v).length) (0 : Nat)).length
        = c.size v := by
    rw [List.length_append, hpadlen]; omega
  have hstream : EncodingByteBinary :: WriteU64 (c.size v) ++ c.write v ++
        List.replicate (c.size v - (c.write v).length) 0 ++ rest =
      EncodingByteBinary :: (WriteU64 (c.size v) ++
        ((c.write v ++ List.replicate (c.size v - (c.write v).length) 0) ++ rest)) := by
    simp [List.append_assoc]
  have htake :
      List.take (c.size v)
          ((c.write v ++ List.replicate (c.size v - (c.write v).length) 0) ++ rest) =
        c.write v ++ List.replicate (c.size v - (c.write v).length) 0 :=
    List.take_left' hbodylen
  have hdrop :
      List.drop ((c.write v).length)
          ((c.write v ++ List.replicate (c.size v - (c.write v).length) 0) ++ rest) =
        List.replicate (c.size v - (c.write v).length) 0 ++ rest := by
    rw [List.append_assoc]
    exact List.drop_left _ _
  have harith :
      ((c.write v ++ List.replicate (c.size v - (c.write v).length) (0 : Nat)).length)
        - (c.size v - (c.write v).length) = (c.write v).length := by
    rw [hbodylen]; omega
  rw [hstream]
  simp only [ReadEntry, ReadByte]
  rw [ReadU64_append _ _ hsz]
  simp only [htake, hread (c.size v - (c.write v).length), hpadlen, harith, hdrop]
  rw [if_pos trivial, Skip_append _ _ rest hpadlen]

theorem getElemOpt_len_append {α : Type _} (pre post : List α) (x : α) :
    (pre ++ x :: post)[pre.length]? = some x := by
  rw [List.getElem?_append_right (Nat.le_refl _)]
  simp

theorem getElemOpt_len_append_succ {α : Type _} (pre post : List α) (x : α) (k : Nat) :
    (pre ++ x :: post)[pre.length + 1 + k]? = post[k]? := by
  rw [List.getElem?_append_right (by omega)]
  simp only [List.getElem?_cons]
  have hk : pre.length + 1 + k - pre.length = k + 1 := by omega
  simp [hk]

theorem set_len_append {α : Type _} (pre post : List α) (x y : α) :
    (pre ++ x :: post).set pre.length y = pre ++ y :: post := by
  simp [List.set_append]

/-! ### Id-scan lemmas: `ReadEntryForId` resolves an id against the entry list -/

theorem ReadEntryForIdN_found (c : ValueCodec τ) (pre post : Record τ) (slot : Slot τ)
    (s : List Nat) (hnotin : slot.id ∉ post.map Slot.id) :
    ∀ k, k ≤ post.length →
      ReadEntryForIdN c (pre ++ slot :: post) slot.id s (pre.length + 1 + k) =
        (pre ++ (ReadEntry c slot s).1 :: post, (ReadEntry c slot s).2) := by
  intro k
  induction k with
  | zero =>
    intro _
    have hget : (pre ++ slot :: post)[pre.length]? = some slot :=
      getElemOpt_len_append pre post slot
    simp only [Nat.add_zero, ReadEntryForIdN, hget, if_pos rfl]
    rw [set_len_append]
    exact if_pos trivial
  | succ k ih =>
    intro hk
    have hklt : k < post.length := by omega
    have hget : (pre ++ slot :: post)[pre.length + 1 + k]? = post[k]? :=
      getElemOpt_len_append_succ pre post slot k
    have hpostk : post[k]? = some post[k] := List.getElem?_eq_getElem hklt
    have hne : (post[k]).id ≠ slot.id := by
      intro h
      exact hnotin (h ▸ List.mem_map_of_mem Slot.id (post.get_mem k hklt))
    have hstep : pre.length + 1 + (k + 1) = (pre.length + 1 + k) + 1 := by omega
    rw [hstep]
    simp only [ReadEntryForIdN, hget, hpostk, if_neg hne]
    exact ih (by omega)

theorem ReadEntryForId_found (c : ValueCodec τ) (pre post : Record τ) (slot : Slot τ)
    (s : List Nat)
    (huniq : ((pre ++ slot :: post).map Slot.id).Nodup) :
    ReadEntryForId c (pre ++ slot :: post) slot.id s =
      (pre ++ (ReadEntry c slot s).1 :: post, (ReadEntry c slot s).2) := by
  have hnotin : slot.id ∉ post.map Slot.id := by
    rw [List.map_append, List.map_cons] at huniq
    exact (List.nodup_cons.mp huniq.of_append_right).1
  have hlen : (pre ++ slot :: post).length = pre.length + 1 + post.length := by
    simp [List.length_append]; omega
  rw [ReadEntryForId, hlen]
  exact ReadEntryForIdN_found c pre post slot s hnotin post.length (Nat.le_refl _)

theorem ReadEntryForIdN_not_found (c : ValueCodec τ) (slots : Record τ) (i : Nat)
    (s : List Nat) (h : ∀ sl ∈ slots, sl.id ≠ i) :
    ∀ n, ReadEntryForIdN c slots i s n = (slots, SkipEntry s) := by
  intro n
  induction n with
  | zero => rfl
  | succ n ih =>
    cases hget : slots[n]? with
    | none => simpa only [ReadEntryForIdN, hget] using ih
    | some sl =>
      have hne : sl.id ≠ i := h sl (List.getElem?_mem hget)
      simpa only [ReadEntryForIdN, hget, if_neg hne] using ih

theorem ReadEntryForId_not_found (c : ValueCodec τ) (slots : Record τ) (i : Nat)
    (s : List Nat) (h : ∀ sl ∈ slots, sl.id ≠ i) :
    ReadEntryForId c slots i s = (slots, SkipEntry s) :=
  ReadEntryForIdN_not_found c slots i s h slots.length

/-! ### The decode run: reading the encoded entries of a record repopulates
exactly the slots that were present, in any surrounding context -/

theorem ReadEntries_run (c : ValueCodec τ) (hc : GoodCodec c) :
    ∀ (mid pre post : Record τ) (m : Nat) (rest : List Nat),
      ((pre ++ mid ++ post).map Slot.id).Nodup →
      (∀ sl ∈ mid, sl.id < 2 ^ 64) →
      ReadEntries c (pre ++ ClearEntries mid ++ post) (ActiveEntryCount mid + m)
          (specEntriesBytes c mid ++ rest) =
        ReadEntries c (pre ++ mid ++ post) m rest := by
  intro mid
  induction mid with
  | nil =>
    intro pre post m rest _ _
    simp [ClearEntries, ActiveEntryCount, specEntriesBytes]
  | cons sl mid ih =>
    intro pre post m rest huniq hids
    have huniq' : (((pre ++ [sl]) ++ mid ++ post).map Slot.id).Nodup := by
      have he : (pre ++ [sl]) ++ mid ++ post = pre ++ (sl :: mid) ++ post := by simp
      rw [he]; exact huniq
    have hids' : ∀ x ∈ mid, Slot.id x < 2 ^ 64 :=
      fun x hx => hids x (List.mem_cons_of_mem _ hx)
    have hre : pre ++ (sl :: mid) ++ post = (pre ++ [sl]) ++ mid ++ post := by simp
    cases sl with
    | deleted j =>
      have hacount : ActiveEntryCount (Slot.deleted j :: mid) = ActiveEntryCount mid := by
        simp [ActiveEntryCount, Slot.present, Slot.empty]
      have hre2 : pre ++ ClearEntries (Slot.deleted j :: mid) ++ post
          = (pre ++ [Slot.deleted j]) ++ ClearEntries mid ++ post := by
        rw [ClearEntries_cons]; simp [Slot.clear]
      rw [hacount, hre2, hre,
        show specEntriesBytes c (Slot.deleted j :: mid) = specEntriesBytes c mid from rfl]
      exact ih (pre ++ [Slot.deleted j]) post m rest huniq' hids'
    | active j p =>
      cases p with
      | none =>
        have hacount : ActiveEntryCount (Slot.active j none :: mid) = ActiveEntryCount mid := by
          simp [ActiveEntryCount, Slot.present, Slot.empty]
        have hre2 : pre ++ ClearEntries (Slot.active j none :: mid) ++ post
            = (pre ++ [Slot.active j none]) ++ ClearEntries mid ++ post := by
          rw [ClearEntries_cons]; simp [Slot.clear]
        rw [hacount, hre2, hre,
          show specEntriesBytes c (Slot.active j none :: mid) = specEntriesBytes c mid from rfl]
        exact ih (pre ++ [Slot.active j none]) post m rest huniq' hids'
      | some v =>
        have hj : j < 2 ^ 64 := hids (Slot.active j (some v)) (List.mem_cons_self _ _)
        have hacount : ActiveEntryCount (Slot.active j (some v) :: mid)
            = 1 + ActiveEntryCount mid := by
          simp [ActiveEntryCount, Slot.present, Slot.empty]
        have hbytes : specEntriesBytes c (Slot.active j (some v) :: mid)
            = specEntryBytes c j v ++ specEntriesBytes c mid := rfl
        have hclear : pre ++ ClearEntries (Slot.active j (some v) :: mid) ++ post
            = pre ++ Slot.active j none :: (ClearEntries mid ++ post) := by
          rw [ClearEntries_cons]; simp [Slot.clear]
        have hcnt : 1 + ActiveEntryCount mid + m = (ActiveEntryCount mid + m) + 1 := by omega
        have hstream : specEntriesBytes c (Slot.active j (some v) :: mid) ++ rest
            = WriteU64 j ++
                ((EncodingByteBinary :: WriteU64 (c.size v) ++ c.write v ++
                  List.replicate (c.size v - (c.write v).length) 0) ++
                  (specEntriesBytes c mid ++ rest)) := by
          rw [hbytes]; simp [specEntryBytes, List.append_assoc]
        have hcuruniq :
            ((pre ++ Slot.active j none :: (ClearEntries mid ++ post)).map Slot.id).Nodup := by
          have hideq : (pre ++ Slot.active j none :: (ClearEntries mid ++ post)).map Slot.id
              = (pre ++ (Slot.active j (some v) :: mid) ++ post).map Slot.id := by
            simp [List.map_append, ClearEntries_ids, Slot.id]
          rw [hideq]; exact huniq
        have hfound := ReadEntryForId_found c pre (ClearEntries mid ++ post)
          (Slot.active j none)
          ((EncodingByteBinary :: WriteU64 (c.size v) ++ c.write v ++
            List.replicate (c.size v - (c.write v).length) 0) ++
            (specEntriesBytes c mid ++ rest)) hcuruniq
        rw [ReadEntry_active_spec c hc j v (specEntriesBytes c mid ++ rest)] at hfound
        simp only [Slot.id] at hfound
        rw [hclear, hacount, hcnt, hstream]
        simp only [ReadEntries, ReadU64_append j _ hj]
        rw [hfound]
        show ReadEntries c (pre ++ Slot.active j (some v) :: (ClearEntries mid ++ post))
            (ActiveEntryCount mid + m) (specEntriesBytes c mid ++ rest) =
          ReadEntries c (pre ++ (Slot.active j (some v) :: mid) ++ post) m rest
        have hcur2 : pre ++ Slot.active j (some v) :: (ClearEntries mid ++ post)
            = (pre ++ [Slot.active j (some v)]) ++ ClearEntries mid ++ post := by simp
        rw [hcur2, hre]
        exact ih (pre ++ [Slot.active j (some v)]) post m rest huniq' hids'

/-! ### Write-side lemmas -/

theorem WriteEntries_eq (c : ValueCodec τ) (hc : GoodCodec c) (slots : Record τ) :
    WriteEntries c slots = .ok (specEntriesBytes c slots) := by
  induction slots with
  | nil => rfl
  | cons sl rest ih =>
    cases sl with
    | deleted j => simp [WriteEntries, WriteEntry, specEntriesBytes, ih]
    | active j p =>
      cases p with
      | none => simp [WriteEntries, WriteEntry, specEntriesBytes, ih]
      | some v =>
        obtain ⟨hle, _, _⟩ := hc v
        have hnot : ¬ c.size v < (c.write v).length := by omega
        simp [WriteEntries, WriteEntry, specEntriesBytes, specEntryBytes, hnot, ih]

theorem WritePayload_eq (c : ValueCodec τ) (hc : GoodCodec c) (hash : Nat)
    (slots : Record τ) :
    WritePayload c hash slots =
      .ok (WriteU64 hash ++ WriteU64 (ActiveEntryCount slots) ++
        specEntriesBytes c slots) := by
  simp [WritePayload, WriteEntries_eq c hc slots]

theorem Write_eq (c : ValueCodec τ) (hc : GoodCodec c) (hash : Nat)
    (slots : Record τ) :
    Write c hash slots =
      .ok (EncodingByteTable :: (WriteU64 hash ++ WriteU64 (ActiveEntryCount slots) ++
        specEntriesBytes c slots)) := by
  simp [Write, WritePayload_eq c hc hash slots]

theorem WriteEntries_of_no_present (c : ValueCodec τ) (slots : Record τ)
    (h0 : ActiveEntryCount slots = 0) : WriteEntries c slots = .ok [] := by
  induction slots with
  | nil => rfl
  | cons sl rest ih =>
    rw [ActiveEntryCount] at h0
    by_cases hp : sl.present = true
    · rw [if_pos hp] at h0; omega
    · rw [if_neg hp] at h0
      have hp' : sl.present = false := by simpa using hp
      have hentry : WriteEntry c sl = .ok [] := by
        cases sl with
        | deleted j => rfl
        | active j p =>
          cases p with
          | none => rfl
          | some v => simp [Slot.present, Slot.empty] at hp'
      have h0' : ActiveEntryCount rest = 0 := by omega
      simp [WriteEntries, hentry, ih h0']

theorem specEntriesBytes_length (c : ValueCodec τ) (hc : GoodCodec c)
    (slots : Record τ) :
    (specEntriesBytes c slots).length =
      TableEntriesSize c slots + specOverhead c slots := by
  induction slots with
  | nil => rfl
  | cons sl rest ih =>
    cases sl with
    | deleted j => simp [specEntriesBytes, TableEntriesSize, EntrySize, specOverhead, ih]
    | active j p =>
      cases p with
      | none => simp [specEntriesBytes, TableEntriesSize, EntrySize, specOverhead, ih]
      | some v =>
        obtain ⟨hle, _, _⟩ := hc v
        simp only [specEntriesBytes, specEntryBytes, TableEntriesSize, EntrySize,
          specOverhead, List.length_append, WriteU64_length, List.length_cons,
          List.length_replicate, EncodingU64Size, ih]
        omega

theorem specOverhead_eq (c : ValueCodec τ) (slots : Record τ) :
    specOverhead c slots = 9 * ActiveEntryCount slots := by
  induction slots with
  | nil => rfl
  | cons sl rest ih =>
    cases sl with
    | deleted j =>
      simp [specOverhead, ActiveEntryCount, Slot.present, Slot.empty, ih]
    | active j p =>
      cases p with
      | none => simp [specOverhead, ActiveEntryCount, Slot.present, Slot.empty, ih]
      | some v =>
        simp [specOverhead, ActiveEntryCount, Slot.present, Slot.empty,
          EncodingU64Size, ih]
        omega

theorem TableEntriesSize_eq_sum (c : ValueCodec τ) (slots : Record τ) :
    TableEntriesSize c slots = (slots.map (slotContribution c)).sum := by
  induction slots with
  | nil => rfl
  | cons sl rest ih =>
    have hsl : EntrySize c sl = slotContribution c sl := by
      cases sl with
      | active j p => cases p <;> rfl
      | deleted j => rfl
    simp [TableEntriesSize, hsl, ih]

/-! ### Claim theorems -/

/-- C1: Round-trip.  For every table record with an arbitrary subset of
active slots populated, decoding the bytes produced by encoding the
record — into any destination record of the same table type — yields the
original record field for field, and deleted slots are empty on both
sides. -/
theorem table_roundtrip (c : ValueCodec τ) (hash : Nat) (slots dest : Record τ)
    (bs extra : List Nat) (hc : GoodCodec c) (hh : hash < 2 ^ 64)
    (hw : WellFormed slots) (hs : SameSchema slots dest)
    (henc : Write c hash slots = .ok bs) :
    Read c hash dest (bs ++ extra) = (slots, .ok extra)
    ∧ ∀ sl ∈ slots, sl.isDeleted = true → sl.empty = true := by
  obtain ⟨huniq, hids, hlen⟩ := hw
  rw [Write_eq c hc hash slots] at henc
  injection henc with henc
  constructor
  · have hbs : bs ++ extra = EncodingByteTable ::
        ((WriteU64 hash ++ WriteU64 (ActiveEntryCount slots) ++
          specEntriesBytes c slots) ++ extra) := by
      rw [← henc]
      rfl
    rw [hbs]
    have hP : (WriteU64 hash ++ WriteU64 (ActiveEntryCount slots) ++
          specEntriesBytes c slots) ++ extra
        = WriteU64 hash ++ (WriteU64 (ActiveEntryCount slots) ++
          (specEntriesBytes c slots ++ extra)) := by
      simp [List.append_assoc]
    have hAC : ActiveEntryCount slots < 2 ^ 64 :=
      lt_of_le_of_lt (ActiveEntryCount_le_length slots) hlen
    have hclear : ClearEntries dest = ClearEntries slots :=
      (ClearEntries_of_sameSchema hs).symm
    have hrun := ReadEntries_run c hc slots [] [] 0 extra
      (by simpa using huniq) hids
    simp only [List.nil_append, List.append_nil, Nat.add_zero] at hrun
    simp only [Read, ReadByte, if_pos rfl, ReadPayload, hclear, hP,
      ReadU64_append hash _ hh, if_pos rfl,
      ReadU64_append (ActiveEntryCount slots) _ hAC, hrun]
    rfl
  · intro sl _ hdel
    cases sl with
    | active j p => simp [Slot.isDeleted] at hdel
    | deleted j => rfl

/-- C5: The size computation equals the spec formula: marker size plus
fingerprint size plus active-count size plus the sum over all schema
slots of the per-slot contribution (0 for deleted and empty active slots,
id size plus value size for present active slots). -/
theorem size_matches_spec (c : ValueCodec τ) (hash : Nat) (slots : Record τ) :
    Size c hash slots =
      BaseEncodingSize + EncodingU64Size hash +
        EncodingU64Size (ActiveEntryCount slots) +
        (slots.map (slotContribution c)).sum := by
  rw [Size, TableEntriesSize_eq_sum]

/-- C6: Serialization emits the table marker, the fingerprint, a count
equal to the number of present active slots, then for each present active
slot in declaration order its id, a binary marker byte, the declared size
`value-size(T, payload)`, and a region of exactly that many bytes holding
the value encoding padded to the declared size. -/
theorem write_matches_spec_layout (c : ValueCodec τ) (hash : Nat)
    (slots : Record τ) (hc : GoodCodec c) :
    Write c hash slots = .ok (specTableBytes c hash slots)
    ∧ ActiveEntryCount slots = (slots.filter fun s => s.present).length
    ∧ ∀ v : τ,
        (c.write v ++ List.replicate (c.size v - (c.write v).length) 0).length
          = c.size v := by
  refine ⟨?_, ActiveEntryCount_eq_filter slots, ?_⟩
  · rw [Write_eq c hc hash slots, specTableBytes, ActiveEntryCount_eq_filter]
    rfl
  · intro v
    obtain ⟨hle, _, _⟩ := hc v
    rw [List.length_append, List.length_replicate]
    omega

/-- C8: A record with zero present active slots serializes to exactly the
table marker, the fingerprint and a count of 0, with no entry bytes, and
decoding that stream yields a record in which every slot is empty. -/
theorem empty_table_encoding (c : ValueCodec τ) (hash : Nat)
    (slots dest : Record τ) (extra : List Nat)
    (h0 : ActiveEntryCount slots = 0) (hh : hash < 2 ^ 64) :
    Write c hash slots = .ok (EncodingByteTable :: (WriteU64 hash ++ WriteU64 0))
    ∧ Read c hash dest ((EncodingByteTable :: (WriteU64 hash ++ WriteU64 0)) ++ extra)
        = (ClearEntries dest, .ok extra)
    ∧ ∀ sl ∈ ClearEntries dest, sl.empty = true := by
  refine ⟨?_, ?_, ?_⟩
  · simp [Write, WritePayload, WriteEntries_of_no_present c slots h0, h0]
  · have hzero : (0 : Nat) < 2 ^ 64 := by norm_num
    simp only [List.cons_append, Read, ReadByte, if_pos rfl, ReadPayload,
      List.append_assoc, ReadU64_append hash _ hh, if_pos rfl,
      ReadU64_append 0 _ hzero]
    rfl
  · intro sl hsl
    obtain ⟨x, _, hx⟩ := List.mem_map.mp hsl
    rw [← hx]
    exact Slot.empty_clear x

/-- C9: Deserialization clears every destination slot before reading any
byte, so decode is not atomic on error: the outcome and final state never
depend on the destination's prior field values, and a fingerprint
mismatch — detected before any entry is read — leaves every slot of the
destination empty. -/
theorem decode_clears_destination (c : ValueCodec τ) (hash wh : Nat)
    (dest : Record τ) (rest : List Nat) (hwh : wh < 2 ^ 64) (hne : wh ≠ hash) :
    (∀ s, ReadPayload c hash dest s = ReadPayload c hash (ClearEntries dest) s)
    ∧ ReadPayload c hash dest (WriteU64 wh ++ rest)
        = (ClearEntries dest, .error EPROTO)
    ∧ ∀ sl ∈ ClearEntries dest, sl.empty = true := by
  refine ⟨?_, ?_, ?_⟩
  · intro s
    simp only [ReadPayload, ClearEntries_idem]
  · simp only [ReadPayload, ReadU64_append wh _ hwh, if_neg hne]
  · intro sl hsl
    obtain ⟨x, _, hx⟩ := List.mem_map.mp hsl
    rw [← hx]
    exact Slot.empty_clear x

/-- C10: The bytes actually emitted for a record exceed the computed size
by exactly, per present active slot, one binary marker byte plus the
encoded width of the 64-bit declared-size field; the two quantities are
equal exactly when the record has no present active slot. -/
theorem write_length_overhead (c : ValueCodec τ) (hash : Nat)
    (slots : Record τ) (bs : List Nat) (hc : GoodCodec c)
    (henc : Write c hash slots = .ok bs) :
    bs.length = Size c hash slots + specOverhead c slots
    ∧ (bs.length = Size c hash slots ↔ ActiveEntryCount slots = 0) := by
  rw [Write_eq c hc hash slots] at henc
  injection henc with henc
  have hlen : bs.length = Size c hash slots + specOverhead c slots := by
    rw [← henc]
    simp only [List.length_cons, List.length_append, WriteU64_length,
      specEntriesBytes_length c hc slots, Size, BaseEncodingSize, EncodingU64Size]
    omega
  refine ⟨hlen, ?_⟩
  rw [hlen, specOverhead_eq]
  constructor
  · intro h; omega
  · intro h; omega

/-- C2: On a stream whose leading fingerprint differs from the
destination schema's fingerprint, deserialization fails — but with the
raw casted errno value `ErrorStatus(EPROTO)` (71), not with the
`ErrorStatus::InvalidTableHash` enumerator (7) that status.h declares for
this failure. -/
theorem hash_mismatch_eproto (c : ValueCodec τ) (hash wh : Nat) (dest : Record τ)
    (rest : List Nat) (hwh : wh < 2 ^ 64) (hne : wh ≠ hash) :
    (ReadPayload c hash dest (WriteU64 wh ++ rest)).2 = .error EPROTO
    ∧ EPROTO ≠ InvalidTableHash := by
  constructor
  · simp only [ReadPayload, ReadU64_append wh _ hwh, if_neg hne]
  · decide

/-- C3: A stream carrying two entries with the id of an active slot fails
when the second entry's id is encountered — the first entry's value is
already populated, whatever bytes follow the second id — but with the raw
casted errno value `ErrorStatus(EPROTO)` (71), not with the
`ErrorStatus::DuplicateTableEntry` enumerator (10) that status.h declares
for this failure. -/
theorem duplicate_id_eproto (c : ValueCodec τ) (pre post : Record τ) (i : Nat)
    (v1 : τ) (junk : List Nat) (hc : GoodCodec c)
    (huniq : ((pre ++ Slot.active i none :: post).map Slot.id).Nodup)
    (hi : i < 2 ^ 64) :
    ReadEntries c (pre ++ Slot.active i none :: post) 2
        (specEntryBytes c i v1 ++ WriteU64 i ++ junk)
      = (pre ++ Slot.active i (some v1) :: post, .error EPROTO)
    ∧ EPROTO ≠ DuplicateTableEntry := by
  constructor
  · have hstream : specEntryBytes c i v1 ++ WriteU64 i ++ junk
        = WriteU64 i ++
            ((EncodingByteBinary :: WriteU64 (c.size v1) ++ c.write v1 ++
              List.replicate (c.size v1 - (c.write v1).length) 0) ++
              (WriteU64 i ++ junk)) := by
      simp [specEntryBytes, List.append_assoc]
    have hfound1 := ReadEntryForId_found c pre post (Slot.active i none)
      ((EncodingByteBinary :: WriteU64 (c.size v1) ++ c.write v1 ++
        List.replicate (c.size v1 - (c.write v1).length) 0) ++
        (WriteU64 i ++ junk)) huniq
    rw [ReadEntry_active_spec c hc i v1 (WriteU64 i ++ junk)] at hfound1
    simp only [Slot.id] at hfound1
    have huniq2 : ((pre ++ Slot.active i (some v1) :: post).map Slot.id).Nodup := by
      have hideq : (pre ++ Slot.active i (some v1) :: post).map Slot.id
          = (pre ++ Slot.active i none :: post).map Slot.id := by
        simp [Slot.id]
      rw [hideq]; exact huniq
    have hfound2 := ReadEntryForId_found c pre post (Slot.active i (some v1)) junk huniq2
    rw [show ReadEntry c (Slot.active i (some v1)) junk
        = (Slot.active i (some v1), .error EPROTO) from rfl] at hfound2
    simp only [Slot.id] at hfound2
    rw [hstream]
    simp only [ReadEntries, ReadU64_append i _ hi, hfound1, hfound2]
  · decide

/-- C7: A wire entry whose id matches a deleted slot of the decoding
schema is treated exactly like an unknown id: for every stream the scan
resolves to the skip path, which reads the binary marker, reads the
declared size and discards exactly that many bytes; the deleted slot
remains empty. -/
theorem deleted_id_skipped (c : ValueCodec τ) (pre post : Record τ) (i sz : Nat)
    (body rest : List Nat)
    (huniq : ((pre ++ Slot.deleted i :: post).map Slot.id).Nodup)
    (hsz : sz < 2 ^ 64) (hlen : body.length = sz) :
    (∀ s, ReadEntryForId c (pre ++ Slot.deleted i :: post) i s
        = (pre ++ Slot.deleted i :: post, SkipEntry s))
    ∧ ReadEntryForId c (pre ++ Slot.deleted i :: post) i
        (EncodingByteBinary :: WriteU64 sz ++ body ++ rest)
      = (pre ++ Slot.deleted i :: post, .ok rest)
    ∧ (Slot.deleted i : Slot τ).empty = true := by
  have hgen : ∀ s, ReadEntryForId c (pre ++ Slot.deleted i :: post) i s
      = (pre ++ Slot.deleted i :: post, SkipEntry s) := by
    intro s
    have h := ReadEntryForId_found c pre post (Slot.deleted i) s huniq
    simp only [Slot.id] at h
    exact h
  refine ⟨hgen, ?_, rfl⟩
  rw [hgen, SkipEntry_spec sz body rest hsz hlen]

/-- C4: A wire entry whose id matches no slot of the decoding schema is
skipped: the scan falls through to the skip path for every stream, the
skip path reads the binary marker, reads the declared size and discards
exactly that many bytes, and a full decode of a stream containing such an
unknown entry between the known entries succeeds with every known active
slot still populated correctly. -/
theorem unknown_id_skipped (c : ValueCodec τ) (hash u sz : Nat)
    (A B dest : Record τ) (ubody extra : List Nat) (hc : GoodCodec c)
    (hh : hash < 2 ^ 64) (hw : WellFormed (A ++ B)) (hs : SameSchema (A ++ B) dest)
    (hu : ∀ sl ∈ A ++ B, sl.id ≠ u) (hu64 : u < 2 ^ 64) (hsz : sz < 2 ^ 64)
    (hlen : ubody.length = sz)
    (hcnt : ActiveEntryCount A + (1 + ActiveEntryCount B) < 2 ^ 64) :
    (∀ s, ReadEntryForId c (A ++ B) u s = (A ++ B, SkipEntry s))
    ∧ SkipEntry (EncodingByteBinary :: WriteU64 sz ++ ubody ++ extra) = .ok extra
    ∧ Read c hash dest
        (EncodingByteTable ::
          (WriteU64 hash ++
            (WriteU64 (ActiveEntryCount A + (1 + ActiveEntryCount B)) ++
              (specEntriesBytes c A ++
                (WriteU64 u ++
                  ((EncodingByteBinary :: WriteU64 sz ++ ubody) ++
                    (specEntriesBytes c B ++ extra)))))))
      = (A ++ B, .ok extra) := by
  obtain ⟨huniq, hids, hlw⟩ := hw
  have hgen : ∀ s, ReadEntryForId c (A ++ B) u s = (A ++ B, SkipEntry s) :=
    fun s => ReadEntryForId_not_found c (A ++ B) u s hu
  refine ⟨hgen, SkipEntry_spec sz ubody extra hsz hlen, ?_⟩
  have hclear : ClearEntries dest = ClearEntries A ++ ClearEntries B := by
    rw [← ClearEntries_of_sameSchema hs, ClearEntries_append]
  have hstep1 : ReadEntries c (ClearEntries A ++ ClearEntries B)
      (ActiveEntryCount A + (1 + ActiveEntryCount B))
      (specEntriesBytes c A ++
        (WriteU64 u ++
          ((EncodingByteBinary :: WriteU64 sz ++ ubody) ++
            (specEntriesBytes c B ++ extra))))
      = ReadEntries c (A ++ ClearEntries B) (1 + ActiveEntryCount B)
          (WriteU64 u ++
            ((EncodingByteBinary :: WriteU64 sz ++ ubody) ++
              (specEntriesBytes c B ++ extra))) := by
    have hn : (([] ++ A ++ ClearEntries B).map Slot.id).Nodup := by
      simpa [ClearEntries_ids] using huniq
    have hi : ∀ sl ∈ A, Slot.id sl < 2 ^ 64 :=
      fun sl hsl => hids sl (List.mem_append_left B hsl)
    simpa using ReadEntries_run c hc A [] (ClearEntries B)
      (1 + ActiveEntryCount B)
      (WriteU64 u ++
        ((EncodingByteBinary :: WriteU64 sz ++ ubody) ++
          (specEntriesBytes c B ++ extra))) hn hi
  have hu' : ∀ sl ∈ A ++ ClearEntries B, sl.id ≠ u := by
    intro sl hsl
    rcases List.mem_append.mp hsl with hA | hB
    · exact hu sl (List.mem_append_left B hA)
    · obtain ⟨x, hxB, hx⟩ := List.mem_map.mp hB
      rw [← hx, Slot.id_clear]
      exact hu x (List.mem_append_right A hxB)
  have hskip : ReadEntryForId c (A ++ ClearEntries B) u
      ((EncodingByteBinary :: WriteU64 sz ++ ubody) ++
        (specEntriesBytes c B ++ extra))
      = (A ++ ClearEntries B, .ok (specEntriesBytes c B ++ extra)) := by
    rw [ReadEntryForId_not_found c _ u _ hu',
      SkipEntry_spec sz ubody (specEntriesBytes c B ++ extra) hsz hlen]
  have hstep2 : ReadEntries c (A ++ ClearEntries B) (1 + ActiveEntryCount B)
      (WriteU64 u ++
        ((EncodingByteBinary :: WriteU64 sz ++ ubody) ++
          (specEntriesBytes c B ++ extra)))
      = ReadEntries c (A ++ ClearEntries B) (ActiveEntryCount B)
          (specEntriesBytes c B ++ extra) := by
    rw [Nat.add_comm 1 (ActiveEntryCount B)]
    simp only [ReadEntries, ReadU64_append u _ hu64, hskip]
  have hstep3 : ReadEntries c (A ++ ClearEntries B) (ActiveEntryCount B)
      (specEntriesBytes c B ++ extra) = (A ++ B, .ok extra) := by
    have hn : ((A ++ B ++ []).map Slot.id).Nodup := by simpa using huniq
    have hi : ∀ sl ∈ B, Slot.id sl < 2 ^ 64 :=
      fun sl hsl => hids sl (List.mem_append_right A hsl)
    have h := ReadEntries_run c hc B A [] 0 extra hn hi
    simp only [List.append_nil, Nat.add_zero] at h
    rw [h]
    rfl
  simp only [Read, ReadByte, if_pos rfl, ReadPayload, hclear,
    ReadU64_append hash _ hh, if_pos rfl,
    ReadU64_append (ActiveEntryCount A + (1 + ActiveEntryCount B)) _ hcnt,
    hstep1, hstep2, hstep3]
  simp

/-! ### Concrete witnesses -/

theorem boolCodec_good : GoodCodec boolCodec := by
  intro v
  refine ⟨?_, ?_, ?_⟩
  · cases v <;> rfl
  · norm_num [boolCodec]
  · intro k
    cases v <;> rfl

/-- Concrete round-trip check: the three-slot record `wSlots` encodes and
decodes back to itself, with trailing stream bytes untouched. -/
theorem table_roundtrip_witness :
    GoodCodec boolCodec ∧ (42 : Nat) < 2 ^ 64 ∧ WellFormed wSlots
    ∧ SameSchema wSlots wSlots
    ∧ Write boolCodec 42 wSlots = .ok wBytes
    ∧ (Read boolCodec 42 wSlots (wBytes ++ [7]) = (wSlots, .ok [7])
        ∧ ∀ sl ∈ wSlots, sl.isDeleted = true → sl.empty = true) :=
  ⟨boolCodec_good, by norm_num, by unfold WellFormed; decide, by unfold SameSchema; decide, rfl,
    table_roundtrip boolCodec 42 wSlots wSlots wBytes [7] boolCodec_good
      (by norm_num) (by unfold WellFormed; decide) (by unfold SameSchema; decide) rfl⟩

/-- Concrete fingerprint-mismatch check: wire fingerprint 5 against
schema fingerprint 42 fails with the casted errno value, which is not
`InvalidTableHash`. -/
theorem hash_mismatch_eproto_witness :
    (5 : Nat) < 2 ^ 64 ∧ (5 : Nat) ≠ 42
    ∧ ((ReadPayload boolCodec 42 wSlots (WriteU64 5 ++ [])).2 = .error EPROTO
        ∧ EPROTO ≠ InvalidTableHash) :=
  ⟨by norm_num, by decide,
    hash_mismatch_eproto boolCodec 42 5 wSlots [] (by norm_num) (by decide)⟩

/-- Concrete duplicate-id check: two wire entries with id 1 against a
schema holding active slot 1 and deleted slot 3 fail with the casted
errno value, which is not `DuplicateTableEntry`. -/
theorem duplicate_id_eproto_witness :
    GoodCodec boolCodec
    ∧ (([] ++ Slot.active 1 none :: [(Slot.deleted 3 : Slot Bool)]).map Slot.id).Nodup
    ∧ (1 : Nat) < 2 ^ 64
    ∧ (ReadEntries boolCodec ([] ++ Slot.active 1 none :: [(Slot.deleted 3 : Slot Bool)]) 2
          (specEntryBytes boolCodec 1 true ++ WriteU64 1 ++ [9])
        = ([] ++ Slot.active 1 (some true) :: [(Slot.deleted 3 : Slot Bool)], .error EPROTO)
        ∧ EPROTO ≠ DuplicateTableEntry) :=
  ⟨boolCodec_good, by decide, by norm_num,
    duplicate_id_eproto boolCodec [] [Slot.deleted 3] 1 true [9] boolCodec_good
      (by decide) (by norm_num)⟩

/-- Concrete unknown-id check: an entry with id 99 and a two-byte body
between the entries of known slots is skipped and the known slots decode
correctly. -/
theorem unknown_id_skipped_witness :
    GoodCodec boolCodec ∧ (42 : Nat) < 2 ^ 64
    ∧ WellFormed ([(Slot.active 1 (some true) : Slot Bool)] ++ [Slot.deleted 3])
    ∧ SameSchema ([(Slot.active 1 (some true) : Slot Bool)] ++ [Slot.deleted 3])
        ([(Slot.active 1 (some true) : Slot Bool)] ++ [Slot.deleted 3])
    ∧ (∀ sl ∈ [(Slot.active 1 (some true) : Slot Bool)] ++ [Slot.deleted 3], sl.id ≠ 99)
    ∧ (99 : Nat) < 2 ^ 64 ∧ (2 : Nat) < 2 ^ 64 ∧ ([5, 6] : List Nat).length = 2
    ∧ ActiveEntryCount [(Slot.active 1 (some true) : Slot Bool)]
        + (1 + ActiveEntryCount [(Slot.deleted 3 : Slot Bool)]) < 2 ^ 64
    ∧ ((∀ s, ReadEntryForId boolCodec
            ([(Slot.active 1 (some true) : Slot Bool)] ++ [Slot.deleted 3]) 99 s
          = ([(Slot.active 1 (some true) : Slot Bool)] ++ [Slot.deleted 3], SkipEntry s))
        ∧ SkipEntry (EncodingByteBinary :: WriteU64 2 ++ [5, 6] ++ [8]) = .ok [8]
        ∧ Read boolCodec 42
            ([(Slot.active 1 (some true) : Slot Bool)] ++ [Slot.deleted 3])
            (EncodingByteTable ::
              (WriteU64 42 ++
                (WriteU64 (ActiveEntryCount [(Slot.active 1 (some true) : Slot Bool)]
                    + (1 + ActiveEntryCount [(Slot.deleted 3 : Slot Bool)])) ++
                  (specEntriesBytes boolCodec [(Slot.active 1 (some true) : Slot Bool)] ++
                    (WriteU64 99 ++
                      ((EncodingByteBinary :: WriteU64 2 ++ [5, 6]) ++
                        (specEntriesBytes boolCodec [(Slot.deleted 3 : Slot Bool)] ++ [8])))))))
          = ([(Slot.active 1 (some true) : Slot Bool)] ++ [Slot.deleted 3], .ok [8])) :=
  ⟨boolCodec_good, by norm_num, by unfold WellFormed; decide, by unfold SameSchema; decide,
    by decide, by norm_num, by norm_num, by decide, by decide,
    unknown_id_skipped boolCodec 42 99 2 [Slot.active 1 (some true)] [Slot.deleted 3]
      ([Slot.active 1 (some true)] ++ [Slot.deleted 3]) [5, 6] [8] boolCodec_good
      (by norm_num) (by unfold WellFormed; decide) (by unfold SameSchema; decide)
      (by decide) (by norm_num) (by norm_num) (by decide) (by decide)⟩

/-- Concrete layout check of the encoder on the three-slot record. -/
theorem write_matches_spec_layout_witness :
    GoodCodec boolCodec
    ∧ (Write boolCodec 42 wSlots = .ok (specTableBytes boolCodec 42 wSlots)
        ∧ ActiveEntryCount wSlots = (wSlots.filter fun s => s.present).length
        ∧ ∀ v : Bool,
            (boolCodec.write v ++
              List.replicate (boolCodec.size v - (boolCodec.write v).length) 0).length
              = boolCodec.size v) :=
  ⟨boolCodec_good, write_matches_spec_layout boolCodec 42 wSlots boolCodec_good⟩

/-- Concrete deleted-id check: an entry addressed to deleted slot 3 is
skipped exactly like an unknown id. -/
theorem deleted_id_skipped_witness :
    (([(Slot.active 1 (some true) : Slot Bool)] ++ Slot.deleted 3 :: []).map Slot.id).Nodup
    ∧ (2 : Nat) < 2 ^ 64 ∧ ([4, 5] : List Nat).length = 2
    ∧ ((∀ s, ReadEntryForId boolCodec
            ([(Slot.active 1 (some true) : Slot Bool)] ++ Slot.deleted 3 :: []) 3 s
          = ([(Slot.active 1 (some true) : Slot Bool)] ++ Slot.deleted 3 :: [], SkipEntry s))
        ∧ ReadEntryForId boolCodec
            ([(Slot.active 1 (some true) : Slot Bool)] ++ Slot.deleted 3 :: []) 3
            (EncodingByteBinary :: WriteU64 2 ++ [4, 5] ++ [6])
          = ([(Slot.active 1 (some true) : Slot Bool)] ++ Slot.deleted 3 :: [], .ok [6])
        ∧ (Slot.deleted 3 : Slot Bool).empty = true) :=
  ⟨by decide, by norm_num, by decide,
    deleted_id_skipped boolCodec [Slot.active 1 (some true)] [] 3 2 [4, 5] [6]
      (by decide) (by norm_num) (by decide)⟩

/-- Concrete empty-table check: a record with only an empty active slot
and a deleted slot encodes to marker, fingerprint and count 0, and that
stream decodes to an all-empty record. -/
theorem empty_table_encoding_witness :
    ActiveEntryCount [(Slot.active 2 none : Slot Bool), Slot.deleted 3] = 0
    ∧ (42 : Nat) < 2 ^ 64
    ∧ (Write boolCodec 42 [(Slot.active 2 none : Slot Bool), Slot.deleted 3]
        = .ok (EncodingByteTable :: (WriteU64 42 ++ WriteU64 0))
        ∧ Read boolCodec 42 [(Slot.active 2 none : Slot Bool), Slot.deleted 3]
            ((EncodingByteTable :: (WriteU64 42 ++ WriteU64 0)) ++ [1])
          = (ClearEntries [(Slot.active 2 none : Slot Bool), Slot.deleted 3], .ok [1])
        ∧ ∀ sl ∈ ClearEntries [(Slot.active 2 none : Slot Bool), Slot.deleted 3],
            sl.empty = true) :=
  ⟨by decide, by norm_num,
    empty_table_encoding boolCodec 42 [Slot.active 2 none, Slot.deleted 3]
      [Slot.active 2 none, Slot.deleted 3] [1] (by decide) (by norm_num)⟩

/-- Concrete non-atomicity check: a fingerprint mismatch leaves the
destination record cleared, independent of its prior values. -/
theorem decode_clears_destination_witness :
    (5 : Nat) < 2 ^ 64 ∧ (5 : Nat) ≠ 42
    ∧ ((∀ s, ReadPayload boolCodec 42 wSlots s
          = ReadPayload boolCodec 42 (ClearEntries wSlots) s)
        ∧ ReadPayload boolCodec 42 wSlots (WriteU64 5 ++ [3])
          = (ClearEntries wSlots, .error EPROTO)
        ∧ ∀ sl ∈ ClearEntries wSlots, sl.empty = true) :=
  ⟨by norm_num, by decide,
    decode_clears_destination boolCodec 42 5 wSlots [3] (by norm_num) (by decide)⟩

/-- Concrete size-versus-bytes check on the three-slot record: one
present active slot gives nine bytes of overhead over the computed
size. -/
theorem write_length_overhead_witness :
    GoodCodec boolCodec ∧ Write boolCodec 42 wSlots = .ok wBytes
    ∧ (wBytes.length = Size boolCodec 42 wSlots + specOverhead boolCodec wSlots
        ∧ (wBytes.length = Size boolCodec 42 wSlots
            ↔ ActiveEntryCount wSlots = 0)) :=
  ⟨boolCodec_good, rfl,
    write_length_overhead boolCodec 42 wSlots wBytes boolCodec_good rfl⟩

end Nop
